import Mathlib

/-!
# Verification of the markdown-editor core

Shallow embedding of the markdown wysiwyg-editor core and its auxiliary
modules, with theorems settling the specification claims about them:

* the transaction dispatch loop and guarded callbacks of
  `WysiwygEditor` (`src/core/Editor.ts`): `dispatchTransaction`,
  `tryOnChange`, `isEmpty`;
* the placeholder decoration plugin (`applyState`, `addDecoration`,
  `placeholderNeeded`);
* the image-size utility (`getImageSize`);
* spec-modelled parts whose implementation is not part of `src/`:
  extension composition (`ExtensionsManager.process`), the dynamic
  modifier layer, the markdown parse/serialize pipeline, and the
  content-handler operations (`clear`/`append`).

Machine integers do not occur: all sizes and positions are JavaScript
non-negative integers modelled as `Nat`.
-/

set_option maxHeartbeats 1000000

namespace MarkdownEditor

/-! ## Image size utility (image utils module) -/

/-- Model of an `HTMLImageElement`: only the natural `width`/`height`
fields read by the size helpers. Both are non-negative integers. -/
structure HTMLImageElement where
  width : Nat
  height : Nat
deriving DecidableEq

/-- Result record of `getImageSize`: the optional width/height image
attributes, rendered as strings, as in the source's attrs object. -/
structure ImageSizeAttrs where
  widthAttr : Option String
  heightAttr : Option String
deriving DecidableEq

/-- Embeds `getImageSize` from the image utils: returns an object whose
height is `String(Math.min(IMG_MAX_HEIGHT, img.height))` and no width.
The constant `IMG_MAX_HEIGHT` is imported from a `const` module that is
not part of `src/`, so it is passed as a parameter here; the claim holds
for every value of the constant. -/
def getImageSize (IMG_MAX_HEIGHT : Nat) (img : HTMLImageElement) : ImageSizeAttrs :=
  ⟨none, some (Nat.repr (min IMG_MAX_HEIGHT img.height))⟩

/-! ## Transaction dispatch (`WysiwygEditor` constructor, `tryOnChange`) -/

/-- Result of invoking a caller-supplied callback: it either returns
normally or throws an error of type `ε`. -/
inductive CbResult (ε : Type) where
  | ok
  | throws (e : ε)
deriving DecidableEq

/-- Which caller-supplied callback an event refers to: the `onChange`
callback or the `onDocChange` callback. -/
inductive CbTag where
  | change
  | docChange
deriving DecidableEq

/-- Observable events of one `dispatchTransaction` run, in program order:
the new state being committed (`updateState`), a callback being invoked,
a thrown callback error being caught and logged (`console.error`), and
the final transaction metrics log. -/
inductive DispatchEvent (ε : Type) where
  | committed
  | invoked (tag : CbTag)
  | errorLogged (tag : CbTag) (e : ε)
  | metricsLogged
deriving DecidableEq

/-- Transaction model: dispatch only inspects the `docChanged` flag; the
actual document mutation is abstracted into the payload consumed by the
state-apply function. -/
structure Tr (τ : Type) where
  payload : τ
  docChanged : Bool

/-- Embeds `WysiwygEditor.tryOnChange`: if a callback is present it is
invoked with the editor; a thrown error is caught and logged
(`console.error`), never propagated. The returned list is the events the
call produces, in order. -/
def tryOnChange {σ ε : Type} (tag : CbTag) (editor : σ) :
    Option (σ → CbResult ε) → List (DispatchEvent ε)
  | none => []
  | some f =>
    match f editor with
    | .ok => [.invoked tag]
    | .throws e => [.invoked tag, .errorLogged tag e]

/-- Embeds the `dispatchTransaction` closure in the `WysiwygEditor`
constructor: compute the new state with `this.state.apply(tr)`, commit it
with `updateState`, call the change callback, call the doc-change
callback only when `tr.docChanged`, then log transaction metrics.
Returns the committed state and the ordered event trace; the function is
total, so no callback error escapes the dispatch. -/
def dispatchTransaction {σ τ ε : Type} (apply : σ → Tr τ → σ)
    (onChange onDocChange : Option (σ → CbResult ε)) (state : σ) (tr : Tr τ) :
    σ × List (DispatchEvent ε) :=
  let newState := apply state tr
  (newState,
    .committed ::
      (tryOnChange .change newState onChange ++
        ((if tr.docChanged then tryOnChange .docChange newState onDocChange else []) ++
          [.metricsLogged])))

/-! ## Spec-modelled markdown parse/serialize pipeline

The markdown parser and serializer implementations (the markdown-it
wrapper, the prosemirror-markdown serializer and the built-in extension
rule sets) are part of this repository but not under `src/`; only their
caller (`WysiwygEditor`) is. They are modelled here from the spec:
a two-stage parse (tokenize markup into lines/blocks, then reduce into a
tree of typed nodes with inline marks), a depth-first serializer, and the
round-trip contract `parse(serialize(tree))` tree-equivalent to `tree`.
The modelled node vocabulary is heading/paragraph with text and an
emphasis mark, paragraphs keeping soft line breaks; blocks are separated
by blank lines. -/

/-- An inline segment: a plain text run or an emphasis-marked run
(serialized by wrapping in the mark's open/close markup, a star). -/
inductive Seg where
  | text (s : List Char)
  | em (s : List Char)
deriving DecidableEq

/-- A block node of the modelled document tree: a heading of a given
level with inline content, or a paragraph whose inline content is a list
of soft-break-separated lines. -/
inductive Block where
  | heading (lvl : Nat) (content : List Seg)
  | para (lns : List (List Seg))
deriving DecidableEq

/-- The modelled document tree: an ordered list of block nodes. -/
abbrev Doc := List Block

/-- Splits a list at every element satisfying `p`, keeping (possibly
empty) groups between separators. The result is never empty. -/
def splitOnP {α : Type} (p : α → Bool) : List α → List (List α)
  | [] => [[]]
  | a :: as =>
    if p a then [] :: splitOnP p as
    else
      match splitOnP p as with
      | [] => [[a]]
      | g :: gs => (a :: g) :: gs

/-- Joins groups with a single separator element between them. -/
def joinSep {α : Type} (s : α) : List (List α) → List α
  | [] => []
  | [g] => g
  | g :: gs => g ++ s :: joinSep s gs

/-- Modelled from the spec: fueled inline tokenizer. A star opens an
emphasis run when a closing star follows; an unmatched star is kept as
literal text (parse-time anomalies are recoverable, never thrown); plain
characters accumulate into maximal text runs. Structural in the fuel,
which `parseInline` supplies as the input length. -/
def parseInlineF : Nat → List Char → List Seg
  | 0, _ => []
  | _, [] => []
  | fuel + 1, c :: cs =>
    if c == '*' then
      if '*' ∈ cs then
        .em (cs.takeWhile (fun x => x != '*')) ::
          parseInlineF fuel ((cs.dropWhile (fun x => x != '*')).tail)
      else
        [.text (c :: cs)]
    else
      .text (c :: cs.takeWhile (fun x => x != '*')) ::
        parseInlineF fuel (cs.dropWhile (fun x => x != '*'))

/-- Modelled from the spec: inline markup of one line reduced to inline
segments. -/
def parseInline (s : List Char) : List Seg := parseInlineF s.length s

/-- Serializes one inline segment: text is emitted as is, an emphasis
run is wrapped in the mark's open/close star. -/
def serializeSeg : Seg → List Char
  | .text s => s
  | .em s => '*' :: (s ++ ['*'])

/-- Serializes a line of inline segments. -/
def serializeInline (l : List Seg) : List Char := (l.map serializeSeg).flatten

/-- Number of leading hash characters of a line. -/
def hashCount (l : List Char) : Nat := (l.takeWhile (fun c => c == '#')).length

/-- A line is a heading line when one or more leading hashes are followed
by a space. -/
def isHeadingLine (l : List Char) : Bool :=
  decide (0 < hashCount l) && ((l.drop (hashCount l)).head? == some ' ')

/-- Reduces a heading line to a heading block: the level is the hash
count, the content is the inline parse of the rest after the space. -/
def parseHeadingLine (l : List Char) : Block :=
  .heading (hashCount l) (parseInline (l.drop (hashCount l + 1)))

/-- Modelled from the spec: reduces one blank-line-delimited group of
lines into blocks. A heading line is its own block; a maximal run of
non-heading lines forms one paragraph whose lines stay soft-break
separated. Structural in the fuel, supplied as the group length. -/
def parseGroupF : Nat → List (List Char) → List Block
  | 0, _ => []
  | _, [] => []
  | fuel + 1, l :: ls =>
    if isHeadingLine l then parseHeadingLine l :: parseGroupF fuel ls
    else
      .para ((l :: ls.takeWhile (fun x => !isHeadingLine x)).map parseInline) ::
        parseGroupF fuel (ls.dropWhile (fun x => !isHeadingLine x))

/-- Reduces one group of lines into blocks. -/
def parseGroup (ls : List (List Char)) : List Block := parseGroupF ls.length ls

/-- A blank line separates block groups. -/
def isBlankLine (l : List Char) : Bool := l.isEmpty

/-- Modelled from the spec: the block-level reduction — group the line
stream at blank lines, drop empty groups, reduce each group. -/
def parseLines (lns : List (List Char)) : List Block :=
  (((splitOnP isBlankLine lns).filter (fun g => !g.isEmpty)).map parseGroup).flatten

/-- Modelled from the spec: `parse(markupText) -> DocumentTree` — split
markup into lines, then reduce. Deterministic in its input. -/
def parse (s : List Char) : Doc :=
  parseLines (splitOnP (fun c => c == '\n') s)

/-- Serializes one block into its markup lines: a heading becomes a
single hashes-space-content line; a paragraph emits one line per
soft-break-separated inline line. -/
def serializeBlock : Block → List (List Char)
  | .heading lvl content => [List.replicate lvl '#' ++ ' ' :: serializeInline content]
  | .para lns => lns.map serializeInline

/-- Modelled from the spec: `serialize(documentTree) -> markupText` —
depth-first walk emitting each block's lines, blocks separated by one
blank line, lines joined with newlines. -/
def serialize (t : Doc) : List Char :=
  joinSep '\n' (joinSep [] (t.map serializeBlock))

/-- The invariant the parser establishes for every block it produces: a
heading has a positive level and inline content that is the inline parse
of some newline-free line; a paragraph consists of at least one
newline-free, non-blank, non-heading line, each parsed inline. -/
def CanonBlock : Block → Prop
  | .heading lvl content =>
    1 ≤ lvl ∧ ∃ l, ('\n' ∉ l) ∧ content = parseInline l
  | .para lns =>
    ∃ lines0, lines0 ≠ [] ∧
      (∀ l ∈ lines0, ('\n' ∉ l) ∧ l ≠ [] ∧ isHeadingLine l = false) ∧
      lns = lines0.map parseInline

/-! ## ProseMirror document nodes and `WysiwygEditor.isEmpty` -/

/-- ProseMirror document node model: a type name and ordered children.
Text content is represented by childless text-type leaves; attributes
and marks are not inspected by the embedded operations. -/
inductive PMNode where
  | mk (typeName : String) (children : List PMNode)

/-- The node's type name. -/
def PMNode.typeName : PMNode → String
  | .mk t _ => t

/-- The node's ordered children. -/
def PMNode.children : PMNode → List PMNode
  | .mk _ c => c

/-- `node.childCount`. -/
def PMNode.childCount (n : PMNode) : Nat := n.children.length

/-- `node.firstChild`, `null` when the node has no children. -/
def PMNode.firstChild (n : PMNode) : Option PMNode := n.children.head?

/-- The schema name of the document node type. -/
def docTypeName : String := "doc"

/-- The schema name of the default block node type. -/
def paragraphTypeName : String := "paragraph"

/-- The schema name of the heading node type. -/
def headingTypeName : String := "heading"

/-- The schema name of the text node type. -/
def textTypeName : String := "text"

/-- The schema name of the emphasis node type in the flattened tree. -/
def emTypeName : String := "em"

/-- Embeds `WysiwygEditor.isEmpty`: the document has exactly one child,
that child's type is named `paragraph`, and it has no children. -/
def isEmpty (doc : PMNode) : Bool :=
  doc.childCount == 1 &&
    (match doc.firstChild with
     | some c => c.typeName == paragraphTypeName && c.childCount == 0
     | none => false)

/-- Maps a modelled inline segment to a ProseMirror leaf node. -/
def segToPM : Seg → PMNode
  | .text _ => .mk textTypeName []
  | .em _ => .mk emTypeName []

/-- Maps a modelled block to a ProseMirror node. -/
def blockToPM : Block → PMNode
  | .heading _ content => .mk headingTypeName (content.map segToPM)
  | .para lns => .mk paragraphTypeName ((lns.map (fun line => line.map segToPM)).flatten)

/-- Modelled from the spec: the parsed block list wrapped into a
schema-valid document node; the schema's content expression requires at
least one block, so an empty parse becomes a single empty paragraph. -/
def docFromBlocks (t : Doc) : PMNode :=
  .mk docTypeName (if t.isEmpty then [.mk paragraphTypeName []] else t.map blockToPM)

/-- Modelled from the spec: the editor state's document right after
construction with the given initial markup. -/
def editorDocFromMarkup (m : List Char) : PMNode := docFromBlocks (parse m)

/-- Modelled from the spec: `clear()` (WysiwygContentHandler, not under
`src/`) replaces the document with the parse of empty markup via one
full-document-replace transaction. -/
def clearDoc (_doc : PMNode) : PMNode := editorDocFromMarkup []

/-- Modelled from the spec: `append(markup)` (WysiwygContentHandler, not
under `src/`) inserts the parsed blocks after the current content via one
full-document-replace transaction. -/
def appendMarkup (doc : PMNode) (m : List Char) : PMNode :=
  .mk docTypeName (doc.children ++ (parse m).map blockToPM)

/-! ## Spec-modelled extension composition (`ExtensionsManager.process`) -/

/-- One node-type contribution of an extension: the contributing
extension's name, the node-type name it defines, and whether it is
explicitly marked to override an earlier definition.
`ExtensionsManager` is part of this repository but not under `src/`. -/
structure NodeContribution where
  extName : String
  nodeName : String
  override : Bool
deriving DecidableEq

/-- A fatal composition error: the conflicting node-type key and the two
extensions that both define it. -/
structure CompositionError where
  key : String
  firstExt : String
  secondExt : String
deriving DecidableEq

/-- Modelled from the spec: the node-type registry pass of
`ExtensionsManager.process`. Contributions are processed in order into
an ordered registry `nodeName → extension`; a duplicate name explicitly
marked override replaces the earlier owner, any other duplicate is a
synchronous construction error naming both extensions and the key. -/
def registerNodes : List (String × String) → List NodeContribution →
    Except CompositionError (List (String × String))
  | acc, [] => .ok acc
  | acc, c :: cs =>
    match acc.find? (fun p => p.1 == c.nodeName) with
    | some p =>
      if c.override then
        registerNodes (acc.map (fun q => if q.1 == c.nodeName then (q.1, c.extName) else q)) cs
      else .error ⟨c.nodeName, p.2, c.extName⟩
    | none => registerNodes (acc ++ [(c.nodeName, c.extName)]) cs

/-- Modelled from the spec: `ExtensionsManager.process` restricted to its
node-type composition, starting from an empty registry. -/
def processExtensions (cs : List NodeContribution) :
    Except CompositionError (List (String × String)) :=
  registerNodes [] cs

/-! ## Spec-modelled dynamic modifier layer -/

/-- The three handler families produced by composition, each an ordered
registry keyed by type/token name: schema handlers, parser token
handlers, serializer node/mark handlers. -/
structure Composed (σ π ρ : Type) where
  schemaHandlers : List (String × σ)
  parserHandlers : List (String × π)
  serializerHandlers : List (String × ρ)

/-- One caller-supplied dynamic modifier declaration: a patch for a key
of one of the three patchable families. The patch receives the base
handler and may call it, ignore it, or compose behavior. -/
inductive DynamicModifierDecl (σ π ρ : Type) where
  | schemaPatch (key : String) (patch : σ → σ)
  | parserPatch (key : String) (patch : π → π)
  | serializerPatch (key : String) (patch : ρ → ρ)

/-- The converted dynamic-modifier config: one key → patch family per
patch surface. -/
structure DynamicModifiersConfig (σ π ρ : Type) where
  schema : List (String × (σ → σ))
  parser : List (String × (π → π))
  serializer : List (String × (ρ → ρ))

/-- Modelled from the spec: `convertDynamicModifiersConfigs` (not under
`src/`) groups the declared modifiers into the three patch families, in
declaration order. -/
def convertDynamicModifiersConfigs {σ π ρ : Type}
    (ms : List (DynamicModifierDecl σ π ρ)) : DynamicModifiersConfig σ π ρ :=
  ms.foldl
    (fun cfg m =>
      match m with
      | .schemaPatch k p => ⟨cfg.schema ++ [(k, p)], cfg.parser, cfg.serializer⟩
      | .parserPatch k p => ⟨cfg.schema, cfg.parser ++ [(k, p)], cfg.serializer⟩
      | .serializerPatch k p => ⟨cfg.schema, cfg.parser, cfg.serializer ++ [(k, p)]⟩)
    ⟨[], [], []⟩

/-- Modelled from the spec: applying one patch family after composition —
for each key the base composition produced, a patch registered under
that key substitutes the resolved handler (receiving the base handler);
keys without a patch are untouched; patch keys matching no handler are a
no-op. Composition order is never changed and no types are added. -/
def applyFamily {α : Type} (mods : List (String × (α → α)))
    (base : List (String × α)) : List (String × α) :=
  base.map fun kv =>
    match mods.find? (fun m => m.1 == kv.1) with
    | some m => (kv.1, m.2 kv.2)
    | none => kv

/-- Embeds the modifier resolution of the `WysiwygEditor` constructor:
a provided modifiers list — even an empty one, which is truthy in the
source — is converted into a dynamic-modifier config and applied to the
three composed families; an absent list applies nothing. -/
def composeWithModifiers {σ π ρ : Type}
    (modifiers : Option (List (DynamicModifierDecl σ π ρ)))
    (base : Composed σ π ρ) : Composed σ π ρ :=
  match modifiers with
  | none => base
  | some ms =>
    let cfg := convertDynamicModifiersConfigs ms
    ⟨applyFamily cfg.schema base.schemaHandlers,
     applyFamily cfg.parser base.parserHandlers,
     applyFamily cfg.serializer base.serializerHandlers⟩

/-! ## Placeholder decoration plugin -/

/-- The placeholder options a node type's spec may declare. The
`content` field holds the resolved `getPlaceholderContent(node, parent)`
result (`none` models the null content for which `createPlaceholder`
returns null); `customPlugin` is the optional plugin key a node may
delegate its placeholder to; `alwaysVisible` marks placeholders drawn
without the cursor. -/
structure PlaceholderSpec where
  content : Option (List Char)
  customPlugin : Option Nat
  alwaysVisible : Bool
deriving DecidableEq

/-- Document node model for the placeholder plugin: the node type's
placeholder spec, the node's own text, and its children. -/
inductive PlNode where
  | mk (placeholder : Option PlaceholderSpec) (text : List Char) (children : List PlNode)

/-- The placeholder spec of the node's type, if declared. -/
def PlNode.placeholderSpec : PlNode → Option PlaceholderSpec
  | .mk p _ _ => p

/-- The node's own text. -/
def PlNode.textOf : PlNode → List Char
  | .mk _ t _ => t

/-- The node's direct children. -/
def PlNode.childrenOf : PlNode → List PlNode
  | .mk _ _ c => c

/-- `node.childCount` for placeholder nodes. -/
def PlNode.childCountPl (n : PlNode) : Nat := n.childrenOf.length

mutual

/-- All descendants of a node, depth-first (the iteration order of
`node.descendants`, which prosemirror-utils `findChildren` flattens). -/
def PlNode.descendants : PlNode → List PlNode
  | .mk _ _ cs => descendantsOfList cs

/-- The nodes of a list together with all their descendants. -/
def descendantsOfList : List PlNode → List PlNode
  | [] => []
  | n :: ns => n :: (PlNode.descendants n ++ descendantsOfList ns)

end

mutual

/-- The concatenated text of a node's subtree. -/
def PlNode.textContent : PlNode → List Char
  | .mk _ t cs => t ++ textContentOfList cs

/-- The concatenated text of a forest. -/
def textContentOfList : List PlNode → List Char
  | [] => []
  | n :: ns => PlNode.textContent n ++ textContentOfList ns

end

/-- Modelled from the spec: `isNodeEmpty` (`utils/nodes`, not under
`src/`) — a node is empty when its subtree carries no content. -/
def isNodeEmpty (n : PlNode) : Bool := n.textContent.isEmpty

/-- Embeds prosemirror-utils `findChildren` as called here (no descend
flag, so it descends): all descendants satisfying the predicate. -/
def findChildren (node : PlNode) (p : PlNode → Bool) : List PlNode :=
  (PlNode.descendants node).filter p

/-- Embeds `placeholderNeeded`: the node is empty and none of its child
nodes has an always-visible placeholder — such children get priority. -/
def placeholderNeeded (node : PlNode) : Bool :=
  isNodeEmpty node &&
    (findChildren node
        (fun n =>
          match n.placeholderSpec with
          | some s => s.alwaysVisible
          | none => false)).isEmpty

/-- An entry of the widgets map: a widget decoration spec (its position,
placeholder content and focus flag) or a custom plugin key. -/
inductive WidgetEntry where
  | widget (pos : Nat) (content : List Char) (focus : Bool)
  | customPluginKey (k : Nat)
deriving DecidableEq

/-- The mutable global state threaded through decoration placement. -/
structure ApplyGlobalState where
  hasFocus : Bool
deriving DecidableEq

/-- Embeds `addDecoration`: computes the decoration position
`pos + node.childCount + 1`; returns unchanged if the node type has no
placeholder spec or the widgets map already holds an entry at that
position; otherwise stores the custom plugin key, or builds the
placeholder widget (none when the resolved content is null), recording
focus when the cursor sits at the decoration position. -/
def addDecoration (widgetsMap : Nat → Option WidgetEntry) (node : PlNode) (pos : Nat)
    (cursorPos : Option Nat) (gs : ApplyGlobalState) :
    (Nat → Option WidgetEntry) × ApplyGlobalState :=
  match node.placeholderSpec with
  | none => (widgetsMap, gs)
  | some ps =>
    let decorationPosition := pos + node.childCountPl + 1
    match widgetsMap decorationPosition with
    | some _ => (widgetsMap, gs)
    | none =>
      match ps.customPlugin with
      | some k =>
        (fun p => if p = decorationPosition then some (.customPluginKey k) else widgetsMap p,
         gs)
      | none =>
        let focus := cursorPos == some decorationPosition
        match ps.content with
        | none => (widgetsMap, gs)
        | some content =>
          (fun p =>
            if p = decorationPosition then some (.widget decorationPosition content focus)
            else widgetsMap p,
           ⟨gs.hasFocus || focus⟩)

/-- Embeds the `decorate` closure of `getPlaceholderWidgetSpecs`: places
a decoration only for nodes whose placeholder spec is always-visible and
needed. -/
def decorate (widgetsMap : Nat → Option WidgetEntry) (gs : ApplyGlobalState)
    (node : PlNode) (pos : Nat) (cursorPos : Option Nat) :
    (Nat → Option WidgetEntry) × ApplyGlobalState :=
  match node.placeholderSpec with
  | some ps =>
    if ps.alwaysVisible && placeholderNeeded node then
      addDecoration widgetsMap node pos cursorPos gs
    else (widgetsMap, gs)
  | none => (widgetsMap, gs)

/-! ## Placeholder plugin state transition (`applyState`) -/

/-- A widget decoration held by the plugin's decoration set: an identity
(the JavaScript object reference), its document position, and its spec
payload (the `{focus}` object compared by `isEqual`). -/
structure Deco where
  id : Nat
  pos : Nat
  focus : Bool
deriving DecidableEq

/-- A desired widget computed by `getPlaceholderWidgetSpecs` from the
new state: a position and the spec payload. -/
structure DesiredWidget where
  pos : Nat
  focus : Bool
deriving DecidableEq

/-- `DecorationSet.map` through the transaction's position mapping: every
decoration keeps its identity, its position is remapped. (Deletion of
decorations whose anchor was removed is outside this model.) -/
def mapDecoSet (mapping : Nat → Nat) (s : List Deco) : List Deco :=
  s.map (fun d => ⟨d.id, mapping d.pos, d.focus⟩)

/-- `DecorationSet.find(pos, pos)`: the decorations at a position. -/
def findAt (s : List Deco) (pos : Nat) : List Deco :=
  s.filter (fun d => d.pos == pos)

/-- `DecorationSet.remove`: removes the given decoration objects. -/
def removeDecos (s : List Deco) (ds : List Deco) : List Deco :=
  s.filter (fun d => !ds.contains d)

/-- One step of the reduce computing `decorationsThatDidNotChange`: the
old mapped decorations found at the desired position are kept when the
first one's spec equals the desired spec (`isEqual(deco[0].spec, spec)`). -/
def unchangedStep (oldMappedSet : List Deco) (w : DesiredWidget) : List Deco :=
  match findAt oldMappedSet w.pos with
  | [] => []
  | d :: ds => if d.focus == w.focus then d :: ds else []

/-- Embeds the reduce in `applyState`: the decorations present in both
the remapped old set and the desired set. -/
def unchangedDecos (oldMappedSet : List Deco) (widgetSpecs : List DesiredWidget) :
    List Deco :=
  widgetSpecs.foldl (fun a w => a ++ unchangedStep oldMappedSet w) []

/-- Embeds `newAddedDecorations`: the desired widgets whose position is
not among the unchanged decorations' positions. -/
def newAddedWidgets (oldMappedSet : List Deco) (widgetSpecs : List DesiredWidget) :
    List DesiredWidget :=
  widgetSpecs.filter
    (fun w =>
      !(((unchangedDecos oldMappedSet widgetSpecs).map (fun d => d.pos)).contains w.pos))

/-- Embeds `applyState` of the placeholder plugin: remap the previous
decoration set through the transaction's mapping; diff the desired set
against it; remove the decorations present only in the old set; add the
desired widgets present only in the new set as freshly created
decorations (identities from `fresh` on); keep unchanged decorations
remapped as-is. -/
def applyState (mapping : Nat → Nat) (widgetSpecs : List DesiredWidget)
    (oldSet : List Deco) (fresh : Nat) : List Deco :=
  let oldMappedSet := mapDecoSet mapping oldSet
  let unchanged := unchangedDecos oldMappedSet widgetSpecs
  let newAdded := newAddedWidgets oldMappedSet widgetSpecs
  let notRelevant := removeDecos oldMappedSet unchanged
  let newSet := if notRelevant.isEmpty then oldMappedSet else removeDecos oldMappedSet notRelevant
  if newAdded.isEmpty then newSet
  else newSet ++ newAdded.enum.map (fun iw => ⟨fresh + iw.1, iw.2.pos, iw.2.focus⟩)

/-! ## Theorems -/

/-- C10: for every loaded image, `getImageSize` returns a height equal
to the minimum of the configured maximum height constant and the image's
natural height, rendered as a decimal string; in particular the returned
height never exceeds the maximum. -/
theorem C10_getImageSize_capped (maxHeight : Nat) (img : HTMLImageElement) :
    (getImageSize maxHeight img).heightAttr = some (Nat.repr (min maxHeight img.height)) ∧
      min maxHeight img.height ≤ maxHeight :=
  ⟨rfl, Nat.min_le_left _ _⟩

/-- Witness for C10 at a concrete image: maximum 600, natural height 800. -/
theorem C10_getImageSize_capped_witness :
    (getImageSize 600 ⟨1000, 800⟩).heightAttr = some (Nat.repr (min 600 800)) ∧
      min 600 800 ≤ 600 :=
  C10_getImageSize_capped 600 ⟨1000, 800⟩

/-- C7: for every dispatched transaction, a throwing change or
doc-change callback is caught and logged and the transaction still
completes — the returned state is the applied new state (committed, as
the first event, before any callback runs), and the trailing metrics
step still executes. -/
theorem C7_callback_error_contained {σ τ ε : Type} (apply : σ → Tr τ → σ)
    (onChange onDocChange : Option (σ → CbResult ε)) (state : σ) (tr : Tr τ) :
    (dispatchTransaction apply onChange onDocChange state tr).1 = apply state tr ∧
      (dispatchTransaction apply onChange onDocChange state tr).2.head? =
        some .committed ∧
      .metricsLogged ∈ (dispatchTransaction apply onChange onDocChange state tr).2 ∧
      (∀ f e, onChange = some f → f (apply state tr) = .throws e →
        .errorLogged .change e ∈
          (dispatchTransaction apply onChange onDocChange state tr).2) ∧
      (∀ f e, onDocChange = some f → tr.docChanged = true →
        f (apply state tr) = .throws e →
        .errorLogged .docChange e ∈
          (dispatchTransaction apply onChange onDocChange state tr).2) := by
  refine ⟨rfl, rfl, ?_, ?_, ?_⟩
  · simp [dispatchTransaction]
  · intro f e hf he
    subst hf
    simp [dispatchTransaction, tryOnChange, he]
  · intro f e hf hd he
    subst hf
    simp [dispatchTransaction, tryOnChange, hd, he]

/-- Witness for C7: a concrete dispatch whose change callback throws;
the error is logged in the event trace. -/
theorem C7_callback_error_contained_witness :
    .errorLogged .change (7 : Nat) ∈
      (dispatchTransaction (fun (s : Nat) (_ : Tr Unit) => s + 1)
        (some fun _ => .throws 7) none 0 ⟨(), true⟩).2 :=
  (C7_callback_error_contained (fun s _ => s + 1) (some fun _ => .throws 7) none 0
      ⟨(), true⟩).2.2.2.1 (fun _ => .throws 7) 7 rfl rfl

/-- C8: with both callbacks provided, the change callback is invoked on
every dispatched transaction (any state change), and the doc-change
callback is invoked if and only if the transaction's docChanged flag is
set. -/
theorem C8_docChange_iff_docChanged {σ τ ε : Type} (apply : σ → Tr τ → σ)
    (fc fd : σ → CbResult ε) (state : σ) (tr : Tr τ) :
    .invoked .change ∈ (dispatchTransaction apply (some fc) (some fd) state tr).2 ∧
      (.invoked .docChange ∈ (dispatchTransaction apply (some fc) (some fd) state tr).2 ↔
        tr.docChanged = true) := by
  rcases tr with ⟨p, dc⟩
  cases dc <;>
    cases h1 : fc (apply state ⟨p, false⟩) <;>
      cases h2 : fd (apply state ⟨p, false⟩) <;>
        cases h3 : fc (apply state ⟨p, true⟩) <;>
          cases h4 : fd (apply state ⟨p, true⟩) <;>
            simp [dispatchTransaction, tryOnChange, h1, h2, h3, h4]

/-- Witness for C8 on a concrete document-changing transaction. -/
theorem C8_docChange_iff_docChanged_witness :
    .invoked .change ∈
      (dispatchTransaction (fun (s : Nat) (_ : Tr Unit) => s + 1)
        (some fun _ => (.ok : CbResult Nat)) (some fun _ => .ok) 0 ⟨(), true⟩).2 ∧
      (.invoked .docChange ∈
        (dispatchTransaction (fun (s : Nat) (_ : Tr Unit) => s + 1)
          (some fun _ => (.ok : CbResult Nat)) (some fun _ => .ok) 0 ⟨(), true⟩).2 ↔
        (⟨(), true⟩ : Tr Unit).docChanged = true) :=
  C8_docChange_iff_docChanged (fun s _ => s + 1) (fun _ => .ok) (fun _ => .ok) 0 ⟨(), true⟩

/-- C9: within one dispatch with both callbacks provided, the commit is
event 0 and the change invocation event 1; any doc-change invocation
sits strictly after both; and the doc-change callback never fires
without the change callback having fired in the same dispatch. -/
theorem C9_dispatch_event_order {σ τ ε : Type} (apply : σ → Tr τ → σ)
    (fc fd : σ → CbResult ε) (state : σ) (tr : Tr τ) :
    (dispatchTransaction apply (some fc) (some fd) state tr).2[0]? =
        some .committed ∧
      (dispatchTransaction apply (some fc) (some fd) state tr).2[1]? =
        some (.invoked .change) ∧
      (∀ i, (dispatchTransaction apply (some fc) (some fd) state tr).2[i]? =
          some (.invoked .docChange) → 2 ≤ i) ∧
      (.invoked .docChange ∈ (dispatchTransaction apply (some fc) (some fd) state tr).2 →
        .invoked .change ∈ (dispatchTransaction apply (some fc) (some fd) state tr).2) := by
  obtain ⟨restc, hc⟩ :
      ∃ rest, tryOnChange CbTag.change (apply state tr) (some fc) =
        .invoked .change :: rest := by
    cases h : fc (apply state tr) with
    | ok => exact ⟨[], by simp [tryOnChange, h]⟩
    | throws e => exact ⟨[.errorLogged .change e], by simp [tryOnChange, h]⟩
  have hevs : (dispatchTransaction apply (some fc) (some fd) state tr).2 =
      .committed :: .invoked .change :: (restc ++
        ((if tr.docChanged then tryOnChange .docChange (apply state tr) (some fd)
          else []) ++ [.metricsLogged])) := by
    simp [dispatchTransaction, hc]
  refine ⟨?_, ?_, ?_, ?_⟩
  · rw [hevs]
    simp
  · rw [hevs]
    simp
  · intro i hi
    rw [hevs] at hi
    match i with
    | 0 => simp at hi
    | 1 => simp at hi
    | n + 2 => omega
  · intro _
    rw [hevs]
    simp

/-- Witness for C9: the event positions on a concrete dispatch. -/
theorem C9_dispatch_event_order_witness :
    (dispatchTransaction (fun (s : Nat) (_ : Tr Unit) => s + 1)
        (some fun _ => (.ok : CbResult Nat)) (some fun _ => .ok) 0 ⟨(), true⟩).2[1]? =
      some (.invoked .change) :=
  (C9_dispatch_event_order (fun s _ => s + 1) (fun _ => .ok) (fun _ => .ok) 0
      ⟨(), true⟩).2.1

/-- Applying an empty patch family leaves every handler untouched. -/
theorem applyFamily_nil {α : Type} (base : List (String × α)) :
    applyFamily [] base = base := by
  simp [applyFamily, List.find?]

/-- C3: constructing the editor with an empty dynamic-modifier config
list produces exactly the same composed schema, parser and serializer
handler registries as constructing it with no modifiers option at all. -/
theorem C3_empty_modifiers_no_interference {σ π ρ : Type} (base : Composed σ π ρ) :
    composeWithModifiers (some []) base = composeWithModifiers none base := by
  cases base with
  | mk s p r =>
    simp [composeWithModifiers, convertDynamicModifiersConfigs, List.foldl,
      applyFamily_nil]

/-- Witness for C3 at a concrete composed registry. -/
theorem C3_empty_modifiers_no_interference_witness :
    composeWithModifiers (some []) (⟨[("p", 1)], [("t", 2)], [("s", 3)]⟩ :
        Composed Nat Nat Nat) =
      composeWithModifiers none ⟨[("p", 1)], [("t", 2)], [("s", 3)]⟩ :=
  C3_empty_modifiers_no_interference ⟨[("p", 1)], [("t", 2)], [("s", 3)]⟩

/-- C4: `isEmpty` is true exactly when the document tree is one
childless node of the default block (paragraph) type; it is true right
after construction with no initial content, false after appending the
markup x, and true again after clear. -/
theorem C4_isEmpty_characterisation :
    (∀ d : PMNode, isEmpty d = true ↔
        (d.childCount = 1 ∧ ∃ c, d.firstChild = some c ∧
          c.typeName = paragraphTypeName ∧ c.childCount = 0)) ∧
      isEmpty (editorDocFromMarkup []) = true ∧
      isEmpty (appendMarkup (editorDocFromMarkup []) ['x']) = false ∧
      (∀ d : PMNode, isEmpty (clearDoc d) = true) := by
  refine ⟨?_, by decide, by decide, ?_⟩
  · intro d
    rcases d with ⟨t, _ | ⟨⟨ct, ccs⟩, rest⟩⟩
    · simp [isEmpty, PMNode.childCount, PMNode.firstChild, PMNode.children]
    · simp [isEmpty, PMNode.childCount, PMNode.firstChild, PMNode.children,
        PMNode.typeName]
  · intro d
    show isEmpty (editorDocFromMarkup []) = true
    decide

/-- Witness for C4: the freshly constructed empty document. -/
theorem C4_isEmpty_characterisation_witness :
    isEmpty (editorDocFromMarkup []) = true :=
  C4_isEmpty_characterisation.2.1


/-- One processing step of the node registry on a cons list. -/
theorem registerNodes_cons (acc : List (String × String)) (c : NodeContribution)
    (cs : List NodeContribution) :
    registerNodes acc (c :: cs) =
      match acc.find? (fun p => p.1 == c.nodeName) with
      | some p =>
        if c.override then
          registerNodes
            (acc.map fun q => if q.1 == c.nodeName then (q.1, c.extName) else q) cs
        else .error ⟨c.nodeName, p.2, c.extName⟩
      | none => registerNodes (acc ++ [(c.nodeName, c.extName)]) cs := rfl

/-- Registry step when the node name is already registered. -/
theorem registerNodes_cons_found (acc : List (String × String)) (c : NodeContribution)
    (cs : List NodeContribution) (p : String × String)
    (hfind : acc.find? (fun q => q.1 == c.nodeName) = some p) :
    registerNodes acc (c :: cs) =
      if c.override then
        registerNodes
          (acc.map fun q => if q.1 == c.nodeName then (q.1, c.extName) else q) cs
      else .error ⟨c.nodeName, p.2, c.extName⟩ := by
  rw [registerNodes_cons, hfind]

/-- Registry step when the node name is new. -/
theorem registerNodes_cons_new (acc : List (String × String)) (c : NodeContribution)
    (cs : List NodeContribution)
    (hfind : acc.find? (fun q => q.1 == c.nodeName) = none) :
    registerNodes acc (c :: cs) = registerNodes (acc ++ [(c.nodeName, c.extName)]) cs := by
  rw [registerNodes_cons, hfind]

/-- Replacing the owner of one key in the registry keeps the key list. -/
theorem registryOverrideKeys (acc : List (String × String)) (name ext : String) :
    (acc.map (fun q => if q.1 == name then (q.1, ext) else q)).map Prod.fst =
      acc.map Prod.fst := by
  induction acc with
  | nil => rfl
  | cons q rest ih =>
    simp only [List.map_cons, ih, List.cons.injEq, and_true]
    by_cases h : q.1 == name
    · rw [if_pos h]
    · rw [if_neg h]

/-- A contribution whose node name is already registered and which is not
marked override can never lead to a successful composition. -/
theorem registerNodes_mem_ne_ok (cs : List NodeContribution) :
    ∀ acc (b : NodeContribution), b ∈ cs → b.override = false →
      b.nodeName ∈ acc.map Prod.fst → ∀ m, registerNodes acc cs ≠ .ok m := by
  induction cs with
  | nil =>
    intro acc b hb
    simp at hb
  | cons c rest ih =>
    intro acc b hb hov hmem m hok
    rcases List.mem_cons.mp hb with hbc | hb2
    · subst hbc
      rcases hfind : acc.find? (fun p => p.1 == b.nodeName) with _ | p
      · obtain ⟨q, hq, hq1⟩ := List.mem_map.mp hmem
        have := List.find?_eq_none.mp hfind q hq
        simp [hq1] at this
      · rw [registerNodes_cons_found acc b rest p hfind, hov] at hok
        simp at hok
    · rcases hfind : acc.find? (fun p => p.1 == c.nodeName) with _ | p
      · rw [registerNodes_cons_new acc c rest hfind] at hok
        refine ih _ b hb2 hov ?_ m hok
        simp [hmem]
      · rw [registerNodes_cons_found acc c rest p hfind] at hok
        by_cases hoc : c.override
        · rw [if_pos hoc] at hok
          refine ih _ b hb2 hov ?_ m hok
          rw [registryOverrideKeys]
          exact hmem
        · rw [if_neg hoc] at hok
          simp at hok

/-- A list containing a duplicated node name whose later contribution is
not marked override never composes successfully, from any registry. -/
theorem registerNodes_dup_ne_ok :
    ∀ (l₁ : List NodeContribution) (a : NodeContribution) (l₂ : List NodeContribution)
      (b : NodeContribution) (l₃ : List NodeContribution) (acc : List (String × String)),
      a.nodeName = b.nodeName → b.override = false →
      ∀ m, registerNodes acc (l₁ ++ a :: (l₂ ++ b :: l₃)) ≠ .ok m := by
  intro l₁
  induction l₁ with
  | nil =>
    intro a l₂ b l₃ acc hname hov m hok
    rw [List.nil_append] at hok
    have hbmem : b ∈ l₂ ++ b :: l₃ := List.mem_append_right _ (List.mem_cons_self b l₃)
    rcases hfind : acc.find? (fun p => p.1 == a.nodeName) with _ | p
    · rw [registerNodes_cons_new acc a _ hfind] at hok
      refine registerNodes_mem_ne_ok _ _ _ hbmem hov ?_ m hok
      rw [← hname]
      simp
    · rw [registerNodes_cons_found acc a _ p hfind] at hok
      by_cases hoa : a.override
      · rw [if_pos hoa] at hok
        refine registerNodes_mem_ne_ok _ _ _ hbmem hov ?_ m hok
        rw [registryOverrideKeys, ← hname]
        have hp1 : p.1 = a.nodeName := by simpa using List.find?_some hfind
        rw [← hp1]
        exact List.mem_map_of_mem Prod.fst (List.mem_of_find?_eq_some hfind)
      · rw [if_neg hoa] at hok
        simp at hok
  | cons c l₁ ih =>
    intro a l₂ b l₃ acc hname hov m hok
    rw [List.cons_append] at hok
    rcases hfind : acc.find? (fun p => p.1 == c.nodeName) with _ | p
    · rw [registerNodes_cons_new acc c _ hfind] at hok
      exact ih a l₂ b l₃ _ hname hov m hok
    · rw [registerNodes_cons_found acc c _ p hfind] at hok
      by_cases hoc : c.override
      · rw [if_pos hoc] at hok
        exact ih a l₂ b l₃ _ hname hov m hok
      · rw [if_neg hoc] at hok
        simp at hok

/-- A composition error names a registered owner of the conflicting key
and a non-override later contributor of the same key. -/
theorem registerNodes_error_names (ctx : List NodeContribution) :
    ∀ (cs : List NodeContribution) (acc : List (String × String)) (e : CompositionError),
      (∀ c ∈ cs, c ∈ ctx) →
      (∀ p ∈ acc, ∃ c ∈ ctx, c.extName = p.2 ∧ c.nodeName = p.1) →
      registerNodes acc cs = .error e →
      (∃ c ∈ ctx, c.extName = e.firstExt ∧ c.nodeName = e.key) ∧
      (∃ c ∈ ctx, c.extName = e.secondExt ∧ c.nodeName = e.key ∧
        c.override = false) := by
  intro cs
  induction cs with
  | nil =>
    intro acc e _ _ herr
    simp [registerNodes] at herr
  | cons c rest ih =>
    intro acc e hsub hacc herr
    have hcctx : c ∈ ctx := hsub c (List.mem_cons_self c rest)
    rcases hfind : acc.find? (fun p => p.1 == c.nodeName) with _ | p
    · rw [registerNodes_cons_new acc c rest hfind] at herr
      refine ih _ e (fun x hx => hsub x (List.mem_cons_of_mem c hx)) ?_ herr
      intro q hq
      rcases List.mem_append.mp hq with hq1 | hq2
      · exact hacc q hq1
      · have : q = (c.nodeName, c.extName) := by simpa using hq2
        subst this
        exact ⟨c, hcctx, rfl, rfl⟩
    · rw [registerNodes_cons_found acc c rest p hfind] at herr
      by_cases hoc : c.override
      · rw [if_pos hoc] at herr
        refine ih _ e (fun x hx => hsub x (List.mem_cons_of_mem c hx)) ?_ herr
        intro q hq
        obtain ⟨q0, hq0, hq0eq⟩ := List.mem_map.mp hq
        by_cases hkey : q0.1 == c.nodeName
        · rw [if_pos hkey] at hq0eq
          subst hq0eq
          refine ⟨c, hcctx, rfl, ?_⟩
          have hkey2 : q0.1 = c.nodeName := by simpa using hkey
          simp [hkey2]
        · rw [if_neg hkey] at hq0eq
          subst hq0eq
          exact hacc q0 hq0
      · rw [if_neg hoc] at herr
        have he : e = ⟨c.nodeName, p.2, c.extName⟩ := by
          cases herr
          rfl
        subst he
        have hp1 : p.1 = c.nodeName := by simpa using List.find?_some hfind
        obtain ⟨c1, hc1, hc1ext, hc1name⟩ := hacc p (List.mem_of_find?_eq_some hfind)
        refine ⟨⟨c1, hc1, hc1ext, by rw [hc1name, hp1]⟩, c, hcctx, rfl, rfl, ?_⟩
        simpa using hoc

/-- C2: composing an ordered extension list in which a later contribution
defines an already-defined node-type name without being marked override
raises a synchronous construction error naming two extensions that both
contribute the conflicting key (the later one non-override); composition
never silently succeeds. -/
theorem C2_duplicate_node_name_is_error (l₁ l₂ l₃ : List NodeContribution)
    (a b : NodeContribution) (hname : a.nodeName = b.nodeName)
    (hov : b.override = false) :
    ∃ e, processExtensions (l₁ ++ a :: (l₂ ++ b :: l₃)) = .error e ∧
      (∃ c ∈ l₁ ++ a :: (l₂ ++ b :: l₃), c.extName = e.firstExt ∧ c.nodeName = e.key) ∧
      (∃ c ∈ l₁ ++ a :: (l₂ ++ b :: l₃),
        c.extName = e.secondExt ∧ c.nodeName = e.key ∧ c.override = false) := by
  rcases hres : processExtensions (l₁ ++ a :: (l₂ ++ b :: l₃)) with e | m
  · refine ⟨e, rfl, ?_⟩
    exact registerNodes_error_names _ _ [] e (fun c hc => hc) (by simp) hres
  · exact absurd hres (registerNodes_dup_ne_ok l₁ a l₂ b l₃ [] hname hov m)

/-- Witness for C2: two concrete extensions both defining the node type
p, the later without override. -/
theorem C2_duplicate_node_name_is_error_witness :
    (⟨"extA", "p", false⟩ : NodeContribution).nodeName =
        (⟨"extB", "p", false⟩ : NodeContribution).nodeName ∧
      (⟨"extB", "p", false⟩ : NodeContribution).override = false ∧
      ∃ e, processExtensions [⟨"extA", "p", false⟩, ⟨"extB", "p", false⟩] = .error e ∧
        (∃ c ∈ [(⟨"extA", "p", false⟩ : NodeContribution), ⟨"extB", "p", false⟩],
          c.extName = e.firstExt ∧ c.nodeName = e.key) ∧
        (∃ c ∈ [(⟨"extA", "p", false⟩ : NodeContribution), ⟨"extB", "p", false⟩],
          c.extName = e.secondExt ∧ c.nodeName = e.key ∧ c.override = false) :=
  ⟨rfl, rfl,
    C2_duplicate_node_name_is_error [] [] [] ⟨"extA", "p", false⟩ ⟨"extB", "p", false⟩
      rfl rfl⟩

/-- C6: the placeholder decoration placement puts at most one auto
decoration per anchor position — `addDecoration` never overwrites an
occupied position of the widgets map — and a node one of whose child
nodes carries an always-visible placeholder is suppressed: its
`placeholderNeeded` is false and `decorate` leaves the widgets map and
the global state untouched, giving the child's decoration precedence. -/
theorem C6_one_decoration_per_anchor_child_precedence :
    (∀ (m : Nat → Option WidgetEntry) (node : PlNode) (pos : Nat)
        (cursorPos : Option Nat) (gs : ApplyGlobalState) (q : Nat),
        m q ≠ none → (addDecoration m node pos cursorPos gs).1 q = m q) ∧
      (∀ (node child : PlNode), child ∈ PlNode.descendants node →
        ∀ sp, child.placeholderSpec = some sp → sp.alwaysVisible = true →
          placeholderNeeded node = false ∧
          ∀ (m : Nat → Option WidgetEntry) (gs : ApplyGlobalState)
            (pos : Nat) (cursorPos : Option Nat),
            decorate m gs node pos cursorPos = (m, gs)) := by
  constructor
  · intro m node pos cursorPos gs q hq
    rcases hps : node.placeholderSpec with _ | ps
    · simp [addDecoration, hps]
    · have hne : m (pos + node.childCountPl + 1) = none → q ≠ pos + node.childCountPl + 1 := by
        intro hocc h
        rw [h] at hq
        exact hq hocc
      rcases hocc : m (pos + node.childCountPl + 1) with _ | w
      · rcases hcp : ps.customPlugin with _ | k
        · rcases hct : ps.content with _ | content
          · simp [addDecoration, hps, hocc, hcp, hct]
          · simp only [addDecoration, hps, hocc, hcp, hct]
            simp [hne hocc]
        · simp only [addDecoration, hps, hocc, hcp]
          simp [hne hocc]
      · simp [addDecoration, hps, hocc]
  · intro node child hchild sp hsp hvis
    have hmemf : child ∈ findChildren node
        (fun n =>
          match n.placeholderSpec with
          | some s => s.alwaysVisible
          | none => false) := by
      refine List.mem_filter.mpr ⟨hchild, ?_⟩
      rw [hsp]
      exact hvis
    have hpn : placeholderNeeded node = false := by
      rw [placeholderNeeded]
      have : (findChildren node
          (fun n =>
            match n.placeholderSpec with
            | some s => s.alwaysVisible
            | none => false)).isEmpty = false := by
        rw [List.isEmpty_eq_false]
        exact List.ne_nil_of_mem hmemf
      rw [this, Bool.and_false]
    refine ⟨hpn, ?_⟩
    intro m gs pos cursorPos
    rcases hps2 : node.placeholderSpec with _ | ps2
    · simp [decorate, hps2]
    · simp [decorate, hps2, hpn]

/-- Witness for C6: a parent node with an empty child that itself carries
an always-visible placeholder; the parent is suppressed, and an occupied
widgets-map position is preserved by addDecoration. -/
theorem C6_one_decoration_per_anchor_child_precedence_witness :
    placeholderNeeded
        (.mk (some ⟨some ['a'], none, true⟩) []
          [.mk (some ⟨some ['b'], none, true⟩) [] []]) = false ∧
      decorate (fun _ => none) ⟨false⟩
          (.mk (some ⟨some ['a'], none, true⟩) []
            [.mk (some ⟨some ['b'], none, true⟩) [] []]) 0 none =
        (fun _ => none, ⟨false⟩) :=
  let child : PlNode := .mk (some ⟨some ['b'], none, true⟩) [] []
  let node : PlNode := .mk (some ⟨some ['a'], none, true⟩) [] [child]
  have h := (C6_one_decoration_per_anchor_child_precedence.2 node child
    (by simp [PlNode.descendants, descendantsOfList, node, child])
    ⟨some ['b'], none, true⟩ rfl rfl)
  ⟨h.1, h.2 (fun _ => none) ⟨false⟩ 0 none⟩

/-- Folding list append from an initial accumulator collects the
per-element contributions in order. -/
theorem foldl_append_flatten {α β : Type} (g : α → List β) :
    ∀ (l : List α) (init : List β),
      l.foldl (fun a x => a ++ g x) init = init ++ (l.map g).flatten := by
  intro l
  induction l with
  | nil =>
    intro init
    simp
  | cons x rest ih =>
    intro init
    simp only [List.foldl_cons, List.map_cons, List.flatten_cons, ih,
      List.append_assoc]

/-- C5: for a transaction whose mapping leaves decorations at distinct
positions, an old decoration matched by a desired widget (same mapped
position, same spec) survives `applyState` as the same remapped object —
its identity is preserved and it is a member of the new set — and that
widget is not in the freshly added decorations: only decorations absent
from the desired set are removed and only widgets absent from the
remapped old set are added. -/
theorem C5_decoration_reference_stability
    (mapping : Nat → Nat) (widgetSpecs : List DesiredWidget) (oldSet : List Deco)
    (fresh : Nat) (d : Deco) (w : DesiredWidget)
    (hnodup : (oldSet.map fun x => mapping x.pos).Nodup)
    (hd : d ∈ oldSet) (hw : w ∈ widgetSpecs)
    (hpos : w.pos = mapping d.pos) (hfoc : w.focus = d.focus) :
    (⟨d.id, mapping d.pos, d.focus⟩ : Deco) ∈
        applyState mapping widgetSpecs oldSet fresh ∧
      w ∉ newAddedWidgets (mapDecoSet mapping oldSet) widgetSpecs := by
  have hmapped : (⟨d.id, mapping d.pos, d.focus⟩ : Deco) ∈ mapDecoSet mapping oldSet :=
    List.mem_map.mpr ⟨d, hd, rfl⟩
  have hall : ∀ e ∈ findAt (mapDecoSet mapping oldSet) w.pos,
      e = (⟨d.id, mapping d.pos, d.focus⟩ : Deco) := by
    intro e he
    obtain ⟨he1, he2⟩ := List.mem_filter.mp he
    obtain ⟨d2, hd2, rfl⟩ := List.mem_map.mp he1
    have hmapeq : mapping d2.pos = mapping d.pos := by
      have hw2 : mapping d2.pos = w.pos := by simpa using he2
      rw [hw2, hpos]
    have hd2d : d2 = d := List.inj_on_of_nodup_map hnodup hd2 hd hmapeq
    rw [hd2d]
  have hdin : (⟨d.id, mapping d.pos, d.focus⟩ : Deco) ∈
      findAt (mapDecoSet mapping oldSet) w.pos := by
    refine List.mem_filter.mpr ⟨hmapped, ?_⟩
    simp [hpos]
  have hstep : (⟨d.id, mapping d.pos, d.focus⟩ : Deco) ∈
      unchangedStep (mapDecoSet mapping oldSet) w := by
    rcases hfa : findAt (mapDecoSet mapping oldSet) w.pos with _ | ⟨e, es⟩
    · rw [hfa] at hdin
      simp at hdin
    · have he : e = (⟨d.id, mapping d.pos, d.focus⟩ : Deco) :=
        hall e (by rw [hfa]; exact List.mem_cons_self _ _)
      have hcond : (e.focus == w.focus) = true := by
        rw [he, hfoc]
        exact beq_self_eq_true d.focus
      have hstepeq : unchangedStep (mapDecoSet mapping oldSet) w = e :: es := by
        unfold unchangedStep
        rw [hfa]
        show (if e.focus == w.focus then e :: es else []) = e :: es
        rw [if_pos hcond]
      rw [hstepeq]
      rw [hfa] at hdin
      exact hdin
  have hunch : (⟨d.id, mapping d.pos, d.focus⟩ : Deco) ∈
      unchangedDecos (mapDecoSet mapping oldSet) widgetSpecs := by
    rw [unchangedDecos, foldl_append_flatten, List.nil_append]
    exact List.mem_flatten.mpr
      ⟨unchangedStep (mapDecoSet mapping oldSet) w, List.mem_map_of_mem _ hw, hstep⟩
  constructor
  · have hNS : (⟨d.id, mapping d.pos, d.focus⟩ : Deco) ∈
        (if (removeDecos (mapDecoSet mapping oldSet)
              (unchangedDecos (mapDecoSet mapping oldSet) widgetSpecs)).isEmpty
          then mapDecoSet mapping oldSet
          else removeDecos (mapDecoSet mapping oldSet)
            (removeDecos (mapDecoSet mapping oldSet)
              (unchangedDecos (mapDecoSet mapping oldSet) widgetSpecs))) := by
      by_cases hnr : (removeDecos (mapDecoSet mapping oldSet)
          (unchangedDecos (mapDecoSet mapping oldSet) widgetSpecs)).isEmpty
      · rw [if_pos hnr]
        exact hmapped
      · rw [if_neg hnr]
        refine List.mem_filter.mpr ⟨hmapped, ?_⟩
        have hnotin : (⟨d.id, mapping d.pos, d.focus⟩ : Deco) ∉
            removeDecos (mapDecoSet mapping oldSet)
              (unchangedDecos (mapDecoSet mapping oldSet) widgetSpecs) := by
          intro hx
          have hx2 := (List.mem_filter.mp hx).2
          simp at hx2
          exact hx2 hunch
        simpa using hnotin
    show (⟨d.id, mapping d.pos, d.focus⟩ : Deco) ∈
      (if (newAddedWidgets (mapDecoSet mapping oldSet) widgetSpecs).isEmpty
        then (if (removeDecos (mapDecoSet mapping oldSet)
              (unchangedDecos (mapDecoSet mapping oldSet) widgetSpecs)).isEmpty
          then mapDecoSet mapping oldSet
          else removeDecos (mapDecoSet mapping oldSet)
            (removeDecos (mapDecoSet mapping oldSet)
              (unchangedDecos (mapDecoSet mapping oldSet) widgetSpecs)))
        else (if (removeDecos (mapDecoSet mapping oldSet)
              (unchangedDecos (mapDecoSet mapping oldSet) widgetSpecs)).isEmpty
          then mapDecoSet mapping oldSet
          else removeDecos (mapDecoSet mapping oldSet)
            (removeDecos (mapDecoSet mapping oldSet)
              (unchangedDecos (mapDecoSet mapping oldSet) widgetSpecs))) ++
          (newAddedWidgets (mapDecoSet mapping oldSet) widgetSpecs).enum.map
            (fun iw => ⟨fresh + iw.1, iw.2.pos, iw.2.focus⟩))
    by_cases hna : (newAddedWidgets (mapDecoSet mapping oldSet) widgetSpecs).isEmpty
    · rw [if_pos hna]
      exact hNS
    · rw [if_neg hna]
      exact List.mem_append_left _ hNS
  · intro hmem
    have h2 := (List.mem_filter.mp hmem).2
    rw [Bool.not_eq_true'] at h2
    have hc : ((unchangedDecos (mapDecoSet mapping oldSet) widgetSpecs).map
        (fun x => x.pos)).contains w.pos = true :=
      List.elem_eq_true_of_mem
        (List.mem_map.mpr ⟨⟨d.id, mapping d.pos, d.focus⟩, hunch, hpos.symm⟩)
    rw [h2] at hc
    exact Bool.false_ne_true hc

/-- Witness for C5: a document with a decoration anchored at position 5
(the empty second paragraph); a character inserted before it shifts every
position by one; the remapped decoration object (same identity 1) is in
the new plugin state and the matching desired widget is not re-added. -/
theorem C5_decoration_reference_stability_witness :
    (⟨1, 6, false⟩ : Deco) ∈
        applyState (fun p => p + 1) [⟨6, false⟩] [⟨1, 5, false⟩] 100 ∧
      (⟨6, false⟩ : DesiredWidget) ∉
        newAddedWidgets (mapDecoSet (fun p => p + 1) [⟨1, 5, false⟩]) [⟨6, false⟩] :=
  C5_decoration_reference_stability (fun p => p + 1) [⟨6, false⟩] [⟨1, 5, false⟩] 100
    ⟨1, 5, false⟩ ⟨6, false⟩ (by decide) (by decide) (by decide) (by decide) (by decide)

/-- Serializing a cons of inline segments. -/
theorem serializeInline_cons (seg : Seg) (rest : List Seg) :
    serializeInline (seg :: rest) = serializeSeg seg ++ serializeInline rest := by
  simp [serializeInline]

/-- Splitting a list at the first occurrence of a member reassembles it. -/
theorem takeWhile_split_at_mem (a : Char) :
    ∀ (cs : List Char), a ∈ cs →
      cs.takeWhile (fun x => x != a) ++ a :: (cs.dropWhile (fun x => x != a)).tail = cs := by
  intro cs
  induction cs with
  | nil =>
    intro h
    simp at h
  | cons c rest ih =>
    intro h
    by_cases hca : c = a
    · subst hca
      rw [List.takeWhile_cons, List.dropWhile_cons]
      simp
    · have hmem : a ∈ rest := by
        rcases List.mem_cons.mp h with h1 | h2
        · exact absurd h1.symm hca
        · exact h2
      have hcna : (c != a) = true := by simp [hca]
      rw [List.takeWhile_cons, List.dropWhile_cons, hcna]
      simp only [if_true]
      rw [List.cons_append, ih hmem]

/-- The inline serializer is a left inverse of the fueled inline parser:
serializing the parse of any line reproduces the line exactly. -/
theorem serializeInline_parseInlineF :
    ∀ (fuel : Nat) (s : List Char), s.length ≤ fuel →
      serializeInline (parseInlineF fuel s) = s := by
  intro fuel
  induction fuel with
  | zero =>
    intro s hs
    have hnil : s = [] := List.length_eq_zero.mp (Nat.le_zero.mp hs)
    subst hnil
    rfl
  | succ fuel ih =>
    intro s hs
    rcases s with _ | ⟨c, cs⟩
    · rfl
    · have hcs : cs.length ≤ fuel := by
        rw [List.length_cons] at hs
        omega
      by_cases hc : c == '*'
      · have hceq : c = '*' := by simpa using hc
        subst hceq
        by_cases hmem : '*' ∈ cs
        · rw [parseInlineF, if_pos hc, if_pos hmem]
          rw [serializeInline_cons]
          have htail : ((cs.dropWhile (fun x => x != '*')).tail).length ≤ fuel := by
            have h1 := (List.dropWhile_sublist (l := cs)
              (p := fun x => x != '*')).length_le
            rw [List.length_tail]
            omega
          rw [ih _ htail]
          rw [serializeSeg]
          rw [List.cons_append, List.append_assoc, List.singleton_append]
          rw [takeWhile_split_at_mem '*' cs hmem]
        · rw [parseInlineF, if_pos hc, if_neg hmem]
          simp [serializeInline, serializeSeg]
      · rw [parseInlineF, if_neg hc]
        rw [serializeInline_cons]
        have hdrop : (cs.dropWhile (fun x => x != '*')).length ≤ fuel := by
          have h1 := (List.dropWhile_sublist (l := cs)
            (p := fun x => x != '*')).length_le
          omega
        rw [ih _ hdrop]
        rw [serializeSeg]
        rw [List.cons_append]
        rw [List.takeWhile_append_dropWhile]

/-- The inline serializer inverts the inline parser on every line. -/
theorem serializeInline_parseInline (s : List Char) :
    serializeInline (parseInline s) = s :=
  serializeInline_parseInlineF s.length s (Nat.le_refl _)

/-- Splitting a cons starting with a separator. -/
theorem splitOnP_cons_pos {α : Type} (p : α → Bool) (x : α) (xs : List α)
    (h : p x = true) : splitOnP p (x :: xs) = [] :: splitOnP p xs := by
  rw [splitOnP, if_pos h]

/-- Splitting a cons starting with a non-separator. -/
theorem splitOnP_cons_neg {α : Type} (p : α → Bool) (x : α) (xs : List α)
    (g : List α) (gs : List (List α)) (h : p x = false)
    (hsp : splitOnP p xs = g :: gs) :
    splitOnP p (x :: xs) = (x :: g) :: gs := by
  rw [splitOnP, if_neg (by simp [h]), hsp]

/-- The split of a list is never the empty list of groups. -/
theorem splitOnP_ne_nil {α : Type} (p : α → Bool) :
    ∀ xs : List α, splitOnP p xs ≠ [] := by
  intro xs
  induction xs with
  | nil => simp [splitOnP]
  | cons x rest ih =>
    by_cases hpx : p x
    · rw [splitOnP_cons_pos p x rest hpx]
      simp
    · rcases hsp : splitOnP p rest with _ | ⟨g, gs⟩
      · exact absurd hsp ih
      · rw [splitOnP_cons_neg p x rest g gs (by simpa using hpx) hsp]
        simp

/-- No element of any group of a split satisfies the separator predicate. -/
theorem splitOnP_groups {α : Type} (p : α → Bool) :
    ∀ (xs : List α), ∀ g ∈ splitOnP p xs, ∀ a ∈ g, p a = false := by
  intro xs
  induction xs with
  | nil =>
    intro g hg a ha
    simp [splitOnP] at hg
    subst hg
    simp at ha
  | cons x rest ih =>
    intro g hg a ha
    by_cases hpx : p x
    · rw [splitOnP_cons_pos p x rest hpx] at hg
      rcases List.mem_cons.mp hg with h1 | h2
      · subst h1
        simp at ha
      · exact ih g h2 a ha
    · rcases hsp : splitOnP p rest with _ | ⟨g0, gs⟩
      · exact absurd hsp (splitOnP_ne_nil p rest)
      · rw [splitOnP_cons_neg p x rest g0 gs (by simpa using hpx) hsp] at hg
        rcases List.mem_cons.mp hg with h1 | h2
        · subst h1
          rcases List.mem_cons.mp ha with h3 | h4
          · subst h3
            simpa using hpx
          · exact ih g0 (by rw [hsp]; exact List.mem_cons_self _ _) a h4
        · exact ih g (by rw [hsp]; exact List.mem_cons_of_mem _ h2) a ha

/-- Every element of a group of a split is an element of the input. -/
theorem splitOnP_mem_orig {α : Type} (p : α → Bool) :
    ∀ (xs : List α), ∀ g ∈ splitOnP p xs, ∀ a ∈ g, a ∈ xs := by
  intro xs
  induction xs with
  | nil =>
    intro g hg a ha
    simp [splitOnP] at hg
    subst hg
    simp at ha
  | cons x rest ih =>
    intro g hg a ha
    by_cases hpx : p x
    · rw [splitOnP_cons_pos p x rest hpx] at hg
      rcases List.mem_cons.mp hg with h1 | h2
      · subst h1
        simp at ha
      · exact List.mem_cons_of_mem x (ih g h2 a ha)
    · rcases hsp : splitOnP p rest with _ | ⟨g0, gs⟩
      · exact absurd hsp (splitOnP_ne_nil p rest)
      · rw [splitOnP_cons_neg p x rest g0 gs (by simpa using hpx) hsp] at hg
        rcases List.mem_cons.mp hg with h1 | h2
        · subst h1
          rcases List.mem_cons.mp ha with h3 | h4
          · subst h3
            exact List.mem_cons_self _ _
          · exact List.mem_cons_of_mem x
              (ih g0 (by rw [hsp]; exact List.mem_cons_self _ _) a h4)
        · exact List.mem_cons_of_mem x
            (ih g (by rw [hsp]; exact List.mem_cons_of_mem _ h2) a ha)

/-- A separator-free list splits into itself as the only group. -/
theorem splitOnP_no_sep {α : Type} (p : α → Bool) :
    ∀ (g : List α), (∀ a ∈ g, p a = false) → splitOnP p g = [g] := by
  intro g
  induction g with
  | nil =>
    intro _
    rfl
  | cons x rest ih =>
    intro h
    exact splitOnP_cons_neg p x rest rest [] (h x (List.mem_cons_self _ _))
      (ih fun a ha => h a (List.mem_cons_of_mem _ ha))

/-- Splitting a separator-free prefix followed by a separator peels the
prefix off as the first group. -/
theorem splitOnP_append_sep {α : Type} (p : α → Bool) (s : α) (hps : p s = true) :
    ∀ (g rest : List α), (∀ a ∈ g, p a = false) →
      splitOnP p (g ++ s :: rest) = g :: splitOnP p rest := by
  intro g
  induction g with
  | nil =>
    intro rest _
    rw [List.nil_append, splitOnP_cons_pos p s rest hps]
  | cons x g0 ih =>
    intro rest h
    rw [List.cons_append]
    exact splitOnP_cons_neg p x (g0 ++ s :: rest) g0 (splitOnP p rest)
      (h x (List.mem_cons_self _ _))
      (ih rest fun a ha => h a (List.mem_cons_of_mem _ ha))

/-- Joining a single group. -/
theorem joinSep_single {α : Type} (s : α) (g : List α) : joinSep s [g] = g := rfl

/-- Joining at least two groups. -/
theorem joinSep_pair {α : Type} (s : α) (g g2 : List α) (rest : List (List α)) :
    joinSep s (g :: g2 :: rest) = g ++ s :: joinSep s (g2 :: rest) := rfl

/-- Splitting inverts joining, for nonempty group lists whose elements
are separator-free. -/
theorem splitOnP_joinSep {α : Type} (p : α → Bool) (s : α) (hps : p s = true) :
    ∀ (gs : List (List α)), gs ≠ [] → (∀ g ∈ gs, ∀ a ∈ g, p a = false) →
      splitOnP p (joinSep s gs) = gs := by
  intro gs
  induction gs with
  | nil =>
    intro h
    exact absurd rfl h
  | cons g rest ih =>
    intro _ hall
    rcases rest with _ | ⟨g2, rest2⟩
    · rw [joinSep_single]
      exact splitOnP_no_sep p g (hall g (List.mem_cons_self _ _))
    · rw [joinSep_pair]
      rw [splitOnP_append_sep p s hps g (joinSep s (g2 :: rest2))
        (hall g (List.mem_cons_self _ _))]
      rw [ih (by simp) fun g1 hg1 a ha => hall g1 (List.mem_cons_of_mem _ hg1) a ha]

/-- Every element of a join is the separator or an element of a group. -/
theorem joinSep_mem {α : Type} (s : α) :
    ∀ (gs : List (List α)) (x : α), x ∈ joinSep s gs →
      x = s ∨ ∃ g ∈ gs, x ∈ g := by
  intro gs
  induction gs with
  | nil =>
    intro x hx
    simp [joinSep] at hx
  | cons g rest ih =>
    intro x hx
    rcases rest with _ | ⟨g2, rest2⟩
    · rw [joinSep_single] at hx
      exact Or.inr ⟨g, List.mem_cons_self _ _, hx⟩
    · rw [joinSep_pair] at hx
      rcases List.mem_append.mp hx with h1 | h2
      · exact Or.inr ⟨g, List.mem_cons_self _ _, h1⟩
      · rcases List.mem_cons.mp h2 with h3 | h4
        · exact Or.inl h3
        · rcases ih x h4 with h5 | ⟨g1, hg1, hx1⟩
          · exact Or.inl h5
          · exact Or.inr ⟨g1, List.mem_cons_of_mem _ hg1, hx1⟩

/-- A join headed by a nonempty group is nonempty. -/
theorem joinSep_ne_nil {α : Type} (s : α) (g : List α) (rest : List (List α))
    (hg : g ≠ []) : joinSep s (g :: rest) ≠ [] := by
  rcases rest with _ | ⟨g2, rest2⟩
  · rw [joinSep_single]
    exact hg
  · rw [joinSep_pair]
    simp

/-- takeWhile over a list all of whose elements pass. -/
theorem takeWhile_all {α : Type} (p : α → Bool) :
    ∀ (l : List α), (∀ a ∈ l, p a = true) → l.takeWhile p = l := by
  intro l
  induction l with
  | nil =>
    intro _
    rfl
  | cons x rest ih =>
    intro h
    rw [List.takeWhile_cons, h x (List.mem_cons_self x rest)]
    simp only [if_true, List.cons.injEq, true_and]
    exact ih fun a ha => h a (List.mem_cons_of_mem x ha)

/-- dropWhile over a list all of whose elements pass. -/
theorem dropWhile_all {α : Type} (p : α → Bool) :
    ∀ (l : List α), (∀ a ∈ l, p a = true) → l.dropWhile p = [] := by
  intro l
  induction l with
  | nil =>
    intro _
    rfl
  | cons x rest ih =>
    intro h
    rw [List.dropWhile_cons, h x (List.mem_cons_self x rest)]
    simp only [if_true]
    exact ih fun a ha => h a (List.mem_cons_of_mem x ha)

/-- takeWhile runs through a passing prefix. -/
theorem takeWhile_append_all {α : Type} (p : α → Bool) :
    ∀ (xs ys : List α), (∀ a ∈ xs, p a = true) →
      (xs ++ ys).takeWhile p = xs ++ ys.takeWhile p := by
  intro xs ys
  induction xs with
  | nil =>
    intro _
    rfl
  | cons x rest ih =>
    intro h
    rw [List.cons_append, List.takeWhile_cons, h x (List.mem_cons_self x rest)]
    simp only [if_true, List.cons_append, List.cons.injEq, true_and]
    exact ih fun a ha => h a (List.mem_cons_of_mem x ha)

/-- The hash count of a serialized heading line is its level. -/
theorem hashCount_heading (lvl : Nat) (l0 : List Char) :
    hashCount (List.replicate lvl '#' ++ ' ' :: l0) = lvl := by
  rw [hashCount]
  rw [takeWhile_append_all _ _ _
    (fun a ha => by rw [List.eq_of_mem_replicate ha]; rfl)]
  rw [List.takeWhile_cons]
  simp

/-- A serialized heading line is recognized as a heading line. -/
theorem isHeadingLine_heading (lvl : Nat) (hlvl : 1 ≤ lvl) (l0 : List Char) :
    isHeadingLine (List.replicate lvl '#' ++ ' ' :: l0) = true := by
  rw [isHeadingLine, hashCount_heading lvl l0]
  have hdrop : (List.replicate lvl '#' ++ ' ' :: l0).drop lvl = ' ' :: l0 := by
    rw [List.drop_left']
    rw [List.length_replicate]
  rw [hdrop]
  simp
  omega

/-- Parsing a serialized heading line recovers level and content. -/
theorem parseHeadingLine_heading (lvl : Nat) (l0 : List Char) :
    parseHeadingLine (List.replicate lvl '#' ++ ' ' :: l0) =
      .heading lvl (parseInline l0) := by
  rw [parseHeadingLine, hashCount_heading lvl l0]
  have hdrop : (List.replicate lvl '#' ++ ' ' :: l0).drop (lvl + 1) = l0 := by
    have h1 : (List.replicate lvl '#' ++ ' ' :: l0).drop lvl = ' ' :: l0 := by
      rw [List.drop_left']
      rw [List.length_replicate]
    rw [← List.drop_drop 1 lvl, h1]
    rfl
  rw [hdrop]

/-- The group reducer on an empty group. -/
theorem parseGroupF_nil : ∀ fuel : Nat, parseGroupF fuel [] = [] := by
  intro fuel
  cases fuel <;> rfl

/-- The group reducer step on a heading line. -/
theorem parseGroupF_heading (fuel : Nat) (l : List Char) (ls : List (List Char))
    (h : isHeadingLine l = true) :
    parseGroupF (fuel + 1) (l :: ls) = parseHeadingLine l :: parseGroupF fuel ls := by
  rw [parseGroupF, if_pos h]

/-- The group reducer step on a paragraph-opening line. -/
theorem parseGroupF_para (fuel : Nat) (l : List Char) (ls : List (List Char))
    (h : isHeadingLine l = false) :
    parseGroupF (fuel + 1) (l :: ls) =
      .para ((l :: ls.takeWhile (fun x => !isHeadingLine x)).map parseInline) ::
        parseGroupF fuel (ls.dropWhile (fun x => !isHeadingLine x)) := by
  rw [parseGroupF, if_neg (by simp [h])]

/-- The group reducer with zero fuel. -/
theorem parseGroupF_zero (ls : List (List Char)) : parseGroupF 0 ls = [] := by
  cases ls <;> rfl

/-- Every block the group reducer produces from newline-free, non-blank
lines satisfies the parser invariant. -/
theorem parseGroupF_canon :
    ∀ (fuel : Nat) (ls : List (List Char)),
      (∀ l ∈ ls, ('\n' ∉ l) ∧ l ≠ []) →
      ∀ b ∈ parseGroupF fuel ls, CanonBlock b := by
  intro fuel
  induction fuel with
  | zero =>
    intro ls _ b hb
    rw [parseGroupF_zero] at hb
    simp at hb
  | succ fuel ih =>
    intro ls hls b hb
    rcases ls with _ | ⟨l, rest⟩
    · rw [parseGroupF_nil] at hb
      simp at hb
    · by_cases hhl : isHeadingLine l
      · rw [parseGroupF_heading fuel l rest hhl] at hb
        rcases List.mem_cons.mp hb with h1 | h2
        · subst h1
          rw [parseHeadingLine]
          have h0 : 0 < hashCount l := by
            rw [isHeadingLine, Bool.and_eq_true] at hhl
            exact of_decide_eq_true hhl.1
          refine ⟨h0, l.drop (hashCount l + 1), ?_, rfl⟩
          intro hnl
          exact (hls l (List.mem_cons_self _ _)).1 (List.mem_of_mem_drop hnl)
        · exact ih rest (fun x hx => hls x (List.mem_cons_of_mem _ hx)) b h2
      · have hhf : isHeadingLine l = false := by simpa using hhl
        rw [parseGroupF_para fuel l rest hhf] at hb
        rcases List.mem_cons.mp hb with h1 | h2
        · subst h1
          refine ⟨l :: rest.takeWhile (fun x => !isHeadingLine x), by simp, ?_, rfl⟩
          intro x hx
          rcases List.mem_cons.mp hx with h3 | h4
          · subst h3
            exact ⟨(hls x (List.mem_cons_self _ _)).1,
              (hls x (List.mem_cons_self _ _)).2, hhf⟩
          · have hxrest : x ∈ rest :=
              (List.takeWhile_sublist (fun y => !isHeadingLine y)).mem h4
            refine ⟨(hls x (List.mem_cons_of_mem _ hxrest)).1,
              (hls x (List.mem_cons_of_mem _ hxrest)).2, ?_⟩
            simpa using List.mem_takeWhile_imp h4
        · refine ih _ (fun x hx => ?_) b h2
          have hxrest : x ∈ rest :=
            (List.dropWhile_sublist (fun y => !isHeadingLine y)).mem hx
          exact hls x (List.mem_cons_of_mem _ hxrest)

/-- Every block produced by parse satisfies the parser invariant. -/
theorem parse_canon (s : List Char) : ∀ b ∈ parse s, CanonBlock b := by
  intro b hb
  rw [parse, parseLines] at hb
  obtain ⟨bl, hbl, hbbl⟩ := List.mem_flatten.mp hb
  obtain ⟨g, hg, rfl⟩ := List.mem_map.mp hbl
  have hgf := List.mem_filter.mp hg
  have hg2 : g ∈ splitOnP isBlankLine (splitOnP (fun c => c == '\n') s) := hgf.1
  have hprops : ∀ l ∈ g, ('\n' ∉ l) ∧ l ≠ [] := by
    intro l hl
    constructor
    · intro hnl
      have hl2 : l ∈ splitOnP (fun c => c == '\n') s :=
        splitOnP_mem_orig _ _ g hg2 l hl
      have := splitOnP_groups (fun c => c == '\n') s l hl2 '\n' hnl
      simp at this
    · intro hleq
      subst hleq
      have := splitOnP_groups isBlankLine _ g hg2 [] hl
      simp [isBlankLine] at this
  rw [parseGroup] at hbbl
  exact parseGroupF_canon g.length g hprops b hbbl

/-- Serializing then parsing each inline line of a paragraph is the
identity on the serialized lines. -/
theorem map_serialize_map_parseInline (lines0 : List (List Char)) :
    (lines0.map parseInline).map serializeInline = lines0 := by
  rw [List.map_map]
  have h : ∀ l1 ∈ lines0, (serializeInline ∘ parseInline) l1 = id l1 :=
    fun l1 _ => serializeInline_parseInline l1
  rw [List.map_congr_left h, List.map_id]

/-- The serialized lines of a canonical block: at least one line, every
line newline-free and non-blank. -/
theorem serializeBlock_lines (b : Block) (hb : CanonBlock b) :
    serializeBlock b ≠ [] ∧ ∀ l ∈ serializeBlock b, ('\n' ∉ l) ∧ l ≠ [] := by
  rcases b with ⟨lvl, content⟩ | ⟨lns⟩
  · obtain ⟨hlvl, l0, hl0, hc⟩ := hb
    subst hc
    rw [serializeBlock, serializeInline_parseInline l0]
    refine ⟨by simp, ?_⟩
    intro l hl
    have hleq : l = List.replicate lvl '#' ++ ' ' :: l0 := by simpa using hl
    subst hleq
    constructor
    · intro hnl
      rcases List.mem_append.mp hnl with h1 | h2
      · exact absurd (List.eq_of_mem_replicate h1) (by decide)
      · rcases List.mem_cons.mp h2 with h3 | h4
        · exact absurd h3 (by decide)
        · exact hl0 h4
    · simp
  · obtain ⟨lines0, hne, hprops, hmap⟩ := hb
    subst hmap
    rw [serializeBlock, map_serialize_map_parseInline]
    exact ⟨hne, fun l hl => ⟨(hprops l hl).1, (hprops l hl).2.1⟩⟩

/-- Reducing the serialized lines of a canonical block recovers exactly
that block. -/
theorem parseGroup_serializeBlock (b : Block) (hb : CanonBlock b) :
    parseGroup (serializeBlock b) = [b] := by
  rcases b with ⟨lvl, content⟩ | ⟨lns⟩
  · obtain ⟨hlvl, l0, hl0, hc⟩ := hb
    subst hc
    rw [serializeBlock, serializeInline_parseInline l0, parseGroup]
    show parseGroupF (0 + 1) [List.replicate lvl '#' ++ ' ' :: l0] = _
    rw [parseGroupF_heading 0 _ [] (isHeadingLine_heading lvl hlvl l0)]
    rw [parseHeadingLine_heading lvl l0, parseGroupF_zero]
  · obtain ⟨lines0, hne, hprops, hmap⟩ := hb
    subst hmap
    rw [serializeBlock, map_serialize_map_parseInline]
    rcases lines0 with _ | ⟨l, rest⟩
    · exact absurd rfl hne
    · rw [parseGroup]
      show parseGroupF (rest.length + 1) (l :: rest) = _
      rw [parseGroupF_para rest.length l rest
        (hprops l (List.mem_cons_self _ _)).2.2]
      rw [takeWhile_all _ rest (fun a ha => by
        rw [(hprops a (List.mem_cons_of_mem _ ha)).2.2]
        rfl)]
      rw [dropWhile_all _ rest (fun a ha => by
        rw [(hprops a (List.mem_cons_of_mem _ ha)).2.2]
        rfl)]
      rw [parseGroupF_nil]

/-- Flattening a map that sends every element to its singleton is the
identity. -/
theorem flatten_map_singleton {α : Type} :
    ∀ (l : List α) (f : α → List α), (∀ x ∈ l, f x = [x]) → (l.map f).flatten = l := by
  intro l
  induction l with
  | nil =>
    intro f _
    rfl
  | cons x rest ih =>
    intro f h
    rw [List.map_cons, List.flatten_cons, h x (List.mem_cons_self _ _)]
    rw [ih f fun y hy => h y (List.mem_cons_of_mem _ hy)]
    rfl

/-- Parsing the serialization of a document whose blocks satisfy the
parser invariant recovers the document exactly. -/
theorem parse_serialize_canon (t : Doc) (ht : ∀ b ∈ t, CanonBlock b) :
    parse (serialize t) = t := by
  rcases t with _ | ⟨b, bs⟩
  · rfl
  · have hgprops : ∀ g ∈ serializeBlock b :: bs.map serializeBlock,
        g ≠ [] ∧ ∀ l ∈ g, ('\n' ∉ l) ∧ l ≠ [] := by
      intro g hg
      have hg2 : g ∈ (b :: bs).map serializeBlock := by
        rw [List.map_cons]
        exact hg
      obtain ⟨b1, hb1, rfl⟩ := List.mem_map.mp hg2
      exact serializeBlock_lines b1 (ht b1 hb1)
    have hallnl : ∀ l ∈ joinSep ([] : List Char)
        (serializeBlock b :: bs.map serializeBlock), ∀ c ∈ l, (c == '\n') = false := by
      intro l hl c hc
      rcases joinSep_mem [] _ l hl with h1 | ⟨g, hg, hlg⟩
      · subst h1
        simp at hc
      · have hnl := ((hgprops g hg).2 l hlg).1
        rw [beq_eq_false_iff_ne]
        intro hceq
        subst hceq
        exact hnl hc
    have hgrpblank : ∀ g ∈ serializeBlock b :: bs.map serializeBlock,
        ∀ l ∈ g, isBlankLine l = false := by
      intro g hg l hl
      have := ((hgprops g hg).2 l hl).2
      rw [isBlankLine, List.isEmpty_eq_false]
      exact this
    rw [serialize, parse, List.map_cons]
    rw [splitOnP_joinSep (fun c => c == '\n') '\n' (by decide) _
      (joinSep_ne_nil [] (serializeBlock b) _
        (serializeBlock_lines b (ht b (List.mem_cons_self _ _))).1)
      hallnl]
    rw [parseLines]
    rw [splitOnP_joinSep isBlankLine [] rfl _ (by simp) hgrpblank]
    rw [List.filter_eq_self.mpr (fun g hg => by
      rw [Bool.not_eq_true', List.isEmpty_eq_false]
      exact (hgprops g hg).1)]
    rw [← List.map_cons serializeBlock b bs, List.map_map]
    exact flatten_map_singleton (b :: bs) (parseGroup ∘ serializeBlock)
      fun x hx => parseGroup_serializeBlock x (ht x hx)

/-- C1: the round-trip guarantee — for every markup text, serializing
the parsed document and re-parsing the output yields exactly the same
document tree as the original parse: `serialize(parse(markupText))`
re-parses to the same document after the parse normalization pass. -/
theorem C1_round_trip_parse_serialize (s : List Char) :
    parse (serialize (parse s)) = parse s :=
  parse_serialize_canon (parse s) (parse_canon s)

/-- Witness for C1 on the spec's concrete scenario shape: a heading, a
blank line and an emphasised paragraph round-trip to the same tree. -/
theorem C1_round_trip_parse_serialize_witness :
    parse (serialize (parse
        ['#', ' ', 'T', '\n', '\n', 'a', ' ', '*', 'b', '*', '.'])) =
      parse ['#', ' ', 'T', '\n', '\n', 'a', ' ', '*', 'b', '*', '.'] :=
  C1_round_trip_parse_serialize
    ['#', ' ', 'T', '\n', '\n', 'a', ' ', '*', 'b', '*', '.']

end MarkdownEditor
